import Mathlib

set_option maxRecDepth 8000

/-!
Verification of the Wordle engine in `src/Wordle` of this repository:
`wordle_simulator_v1.py`, `compute_entropy.py` and
`wordle_player_optimizer_v1.py`.  Python strings are embedded as lists of
characters, Python ints as `ℕ`, Python floats as `ℝ` (with `ℚ` for the
exactly-rational intermediate count ratios), dictionaries read with
`.get(key, 0)` as total functions defaulting to `0`, and a function that can
raise (Python's `max` on an empty sequence) as an `Option`-valued function.
-/

/-- Words, guesses, answers and feedback patterns are Python strings:
lists of characters. -/
abbrev Word := List Char

/-- Character produced for position `i` by the inline feedback-pattern
construction of the engine, `"G" if guess[i] == answer[i] else ("Y" if
guess[i] in answer else "B")` (wordle_simulator_v1.py line 120; the same
expression, with `word`/`possible_word` for `guess`/`answer`, is
compute_entropy.py lines 23-27).  Out-of-range indexing is modelled by
`getD` with a default character. -/
def patternChar (guess answer : Word) (i : ℕ) : Char :=
  if guess.getD i ' ' = answer.getD i ' ' then 'G'
  else if guess.getD i ' ' ∈ answer then 'Y'
  else 'B'

/-- Feedback pattern of a guess against an answer:
`"".join(patternChar ... for i in range(5))`, the inline pattern used both by
`simulate_game` (wordle_simulator_v1.py line 120) and by
`ComputeEntropy.compute_entropy` (compute_entropy.py lines 22-28). -/
def patternOf (guess answer : Word) : Word :=
  (List.range 5).map (patternChar guess answer)

/-- ComputeEntropy.generate_all_patterns (compute_entropy.py lines 12-15):
`["".join(p) for p in itertools.product("GYB", repeat=5)]`. -/
def ALL_POSSIBLE_PATTERNS : List Word :=
  (['G','Y','B']).flatMap (fun a =>
    (['G','Y','B']).flatMap (fun b =>
      (['G','Y','B']).flatMap (fun c =>
        (['G','Y','B']).flatMap (fun d =>
          (['G','Y','B']).map (fun e => [a, b, c, d, e])))))

/-- Size of one feedback bucket: the value `feedback_patterns[pat]` after the
counting loop of compute_entropy.py lines 20-28 (a `defaultdict(int)` whose
key `pat` is incremented once for every `possible_word` whose pattern against
`word` is `pat`). -/
def bucket (word : Word) (words : List Word) (pat : Word) : ℕ :=
  (words.filter (fun w => patternOf word w == pat)).length

/-- The list `probabilities` of compute_entropy.py lines 30-34:
`(feedback_patterns[pattern] / total_patterns) if pattern in feedback_patterns
else 0` for every pattern of `ALL_POSSIBLE_PATTERNS`.  `total_patterns =
sum(feedback_patterns.values())` equals `len(words)` because the counting loop
increments exactly one key per word, and a pattern absent from the dict has
bucket `0`, so both cases are `bucket / len(words)`. -/
def probabilities (word : Word) (words : List Word) : List ℚ :=
  ALL_POSSIBLE_PATTERNS.map
    (fun pat => (bucket word words pat : ℚ) / (words.length : ℚ))

/-- ComputeEntropy.compute_entropy (compute_entropy.py lines 17-37):
`entropy = -sum(p * log2(p) for p in probabilities if p > 0)`.  The source
returns the pair `(word, entropy)` used to build a dict; we return the
entropy component. -/
noncomputable def compute_entropy (word : Word) (words : List Word) : ℝ :=
  -(((probabilities word words).filter (fun p => decide (0 < p))).map
      (fun p : ℚ => (p : ℝ) * Real.logb 2 (p : ℝ))).sum

/-- ComputeEntropy.compute_entropy_scores with `multi = 0`
(compute_entropy.py lines 39-48): the dict mapping every word of `words` to
its entropy.  The dict is only ever read through `.get(word, 0)`
(score_word), so it is modelled as the total function defaulting to `0`. -/
noncomputable def compute_entropy_scores (words : List Word) : Word → ℝ :=
  fun w => if w ∈ words then compute_entropy w words else 0

/-- get_letter_frequencies (wordle_simulator_v1.py lines 65-67):
`Counter(itertools.chain.from_iterable(words))`, read with a default of 0. -/
def get_letter_frequencies (words : List Word) : Char → ℕ :=
  fun c => words.flatten.count c

/-- compute_positional_frequencies (wordle_simulator_v1.py lines 69-75):
`positional_freq[i][letter]` counts the words whose letter at position `i`
is `letter`. -/
def compute_positional_frequencies (words : List Word) : ℕ → Char → ℕ :=
  fun i c => (words.filterMap (fun w => w[i]?)).count c

/-- The `base_score` of score_word (wordle_simulator_v1.py line 79):
`sum(letter_frequencies[c] for c in set(word))`; the distinct letters of
`word` are enumerated by `dedup`. -/
def base_score (word : Word) (letter_frequencies : Char → ℕ) : ℕ :=
  (word.dedup.map letter_frequencies).sum

/-- The `positional_score` of score_word (wordle_simulator_v1.py line 80):
`sum(positional_frequencies[i][c] for i, c in enumerate(word))`. -/
def positional_score (word : Word) (positional_frequencies : ℕ → Char → ℕ) : ℕ :=
  (word.enum.map (fun p => positional_frequencies p.1 p.2)).sum

/-- The `uniqueness_penalty` of score_word (wordle_simulator_v1.py line 81):
`(len(set(word)) / len(word)) ** 1.5`. -/
noncomputable def uniqueness_penalty (word : Word) : ℝ :=
  ((word.dedup.length : ℝ) / (word.length : ℝ)) ^ (1.5 : ℝ)

/-- score_word (wordle_simulator_v1.py lines 77-85; identical in
wordle_player_optimizer_v1.py lines 95-103):
`(w_base * base_score) + (w_positional * positional_score) *
uniqueness_penalty + (w_entropy * entropy_score)` where `entropy_score =
entropy_scores.get(word, 0)`.  The unused parameters `remaining_guesses` and
`words` are kept because the source declares them. -/
noncomputable def score_word (remaining_guesses : ℕ) (word : Word)
    (letter_frequencies : Char → ℕ) (positional_frequencies : ℕ → Char → ℕ)
    (words : List Word) (entropy_scores : Word → ℝ)
    (w_base w_positional w_entropy : ℝ) : ℝ :=
  w_base * (base_score word letter_frequencies : ℝ)
    + w_positional * (positional_score word positional_frequencies : ℝ)
        * uniqueness_penalty word
    + w_entropy * entropy_scores word

/-- Python's `max(iterable, key=key)`: scans left to right keeping the current
maximum and replacing it only on a strictly larger key, so the first of
several maximal elements is returned; raises `ValueError` (here: `none`) on an
empty sequence. -/
noncomputable def pymax {α : Type} (key : α → ℝ) : List α → Option α
  | [] => none
  | x :: xs => some (xs.foldl (fun cur y => if key cur < key y then y else cur) x)

/-- best_guess (wordle_simulator_v1.py lines 87-92):
`max(words, key=lambda word: score_word(...))` over the computed letter and
positional frequency tables.  `last_feedback` is declared but unused in the
source.  The Python defaults are `last_feedback=None`, `w_base=0.4`,
`w_positional=0.4`, `w_entropy=0.2`; call sites pass them explicitly here. -/
noncomputable def best_guess (words : List Word) (remaining_guesses : ℕ)
    (entropy_scores : Word → ℝ) (last_feedback : Option Word)
    (w_base w_positional w_entropy : ℝ) : Option Word :=
  pymax (fun word => score_word remaining_guesses word
    (get_letter_frequencies words) (compute_positional_frequencies words)
    words entropy_scores w_base w_positional w_entropy) words

/-- Mismatch test of filter_words (wordle_simulator_v1.py lines 100-102) for
one position `i` of `enumerate(zip(guess, result))` with `g = guess[i]` and
`r = result[i]`:
`(r == 'G' and word[i] != g) or (r == 'Y' and (g not in word or word[i] == g))
or (r == 'B' and g in word and guess.count(g) <= result.count("B"))`. -/
def badPos (word guess result : Word) (i : ℕ) (g r : Char) : Prop :=
  (r = 'G' ∧ word.getD i ' ' ≠ g)
  ∨ (r = 'Y' ∧ (g ∉ word ∨ word.getD i ' ' = g))
  ∨ (r = 'B' ∧ g ∈ word ∧ guess.count g ≤ result.count 'B')

instance (word guess result : Word) (i : ℕ) (g r : Char) :
    Decidable (badPos word guess result i g r) := by
  unfold badPos
  infer_instance

/-- Inner loop of filter_words (wordle_simulator_v1.py lines 98-104): walk
`enumerate(zip(guess, result))` and fail on the first mismatching position —
the word `match`es when no position mismatches. -/
def matchesAux (word guess result : Word) : ℕ → List Char → List Char → Bool
  | _, [], _ => true
  | _, _, [] => true
  | i, g :: gs, r :: rs =>
    if badPos word guess result i g r then false
    else matchesAux word guess result (i + 1) gs rs

/-- filter_words (wordle_simulator_v1.py lines 94-107, identical in
wordle_player_optimizer_v1.py lines 50-63): keep, in order, the words with no
mismatching position against the guess and the feedback `result`. -/
def filter_words (words : List Word) (guess result : Word) : List Word :=
  words.filter (fun word => matchesAux word guess result 0 guess result)

/-- Loop of simulate_game (wordle_simulator_v1.py lines 109-123) with the
random `answer` passed explicitly and the already-made guesses accumulated in
reverse.  Each turn: `guess = best_guess(words, remaining_guesses,
entropy_scores)` (remaining_guesses stays 6 in v1 and the weight and
frequency arguments are NOT forwarded, so the defaults 0.4/0.4/0.2 apply);
on a hit return the guesses and their count; otherwise filter the words by
the pattern of the guess against the answer and recompute
`entropy_scores = compute_entropy_scores(words, multi=0)`.  Out of fuel
(6 turns) returns attempt count 0, the failure marker.  A `none` result
models the `ValueError` Python's `max` raises on an empty candidate list. -/
noncomputable def simulate_loop (answer : Word) :
    ℕ → List Word → (Word → ℝ) → List Word → Option (List Word × ℕ)
  | 0, _, _, guesses => some (guesses.reverse, 0)
  | fuel + 1, words, entropy_scores, guesses =>
    match best_guess words 6 entropy_scores none 0.4 0.4 0.2 with
    | none => none
    | some guess =>
      if guess = answer then some ((guess :: guesses).reverse, guesses.length + 1)
      else
        simulate_loop answer fuel
          (filter_words words guess (patternOf guess answer))
          (compute_entropy_scores (filter_words words guess (patternOf guess answer)))
          (guess :: guesses)

/-- simulate_game (wordle_simulator_v1.py lines 109-123).  The random choice
`answer = random.choice(WORD_LIST)` is passed as the `answer` parameter; the
`WORD_FREQUENCY`, `w_base`, `w_positional` and `w_entropy` parameters are
declared by the source but never used in the body. -/
noncomputable def simulate_game (WORD_LIST : List Word) (WORD_FREQUENCY : Word → ℕ)
    (entropy_scores : Word → ℝ) (w_base w_positional w_entropy : ℝ)
    (answer : Word) : Option (Word × List Word × ℕ) :=
  (simulate_loop answer 6 WORD_LIST entropy_scores []).map (fun r => (answer, r.1, r.2))

/-- Observer for simulate_loop: the successive candidate lists handed to
best_guess during a run of simulate_game, in order.  It unfolds exactly like
`simulate_loop`, recording `words` at each turn. -/
noncomputable def simulate_trace (answer : Word) :
    ℕ → List Word → (Word → ℝ) → List (List Word)
  | 0, _, _ => []
  | fuel + 1, words, entropy_scores =>
    words ::
      (match best_guess words 6 entropy_scores none 0.4 0.4 0.2 with
       | none => []
       | some guess =>
         if guess = answer then []
         else
           simulate_trace answer fuel
             (filter_words words guess (patternOf guess answer))
             (compute_entropy_scores (filter_words words guess (patternOf guess answer))))

/-- Aggregation step of evaluate_weights_parallel
(wordle_player_optimizer_v1.py lines 160-167).  `attempts` is the list the
worker pool returns, one attempt count per simulated game (0 marks failure):
`valid_attempts = [a for a in attempts if a > 0]` and the result is
`sum(valid_attempts) / len(valid_attempts) if valid_attempts else
float('inf')`, with `float('inf')` modelled by `⊤`. -/
def evaluate_weights_parallel (attempts : List ℕ) : WithTop ℚ :=
  let valid_attempts := attempts.filter (fun a => decide (0 < a))
  if valid_attempts.isEmpty then ⊤
  else ((valid_attempts.sum : ℚ) / (valid_attempts.length : ℚ) : ℚ)

/-- The grid `np.linspace(0, 1, 11)` of optimize_weights
(wordle_player_optimizer_v1.py line 183). -/
def weight_range : List ℚ :=
  (List.range 11).map (fun k => (k : ℚ) / 10)

/-- optimize_weights (wordle_player_optimizer_v1.py lines 179-198)
parametrised by the score of each weight point: `evalAt w_base w_positional`
stands for the `evaluate_weights_parallel` value of the 50 pooled random
simulations at that point.  Grid-search both weights over `weight_range`,
skip points with `w_entropy = 1 - (w_base + w_positional) < 0`, and keep the
first point whose average is strictly below the best so far (initially
`float('inf')` = `⊤`, best weights initially `(0, 0, 0)`). -/
def optimize_weights (evalAt : ℚ → ℚ → WithTop ℚ) : (ℚ × ℚ × ℚ) × WithTop ℚ :=
  weight_range.foldl (fun best w_base =>
    weight_range.foldl (fun best w_positional =>
      if 1 - (w_base + w_positional) < 0 then best
      else if evalAt w_base w_positional < best.2 then
        ((w_base, w_positional, 1 - (w_base + w_positional)), evalAt w_base w_positional)
      else best) best) ((0, 0, 0), ⊤)

/-! ### General helper lemmas -/

/-- A fold whose step function never changes the accumulator returns the
initial accumulator. -/
lemma foldl_id {α β : Type} (f : β → α → β) (h : ∀ b a, f b a = b) :
    ∀ (l : List α) (b : β), l.foldl f b = b
  | [], _ => rfl
  | a :: l, b => by rw [List.foldl_cons, h]; exact foldl_id f h l b

/-- A filter that loses no length satisfies its predicate everywhere. -/
lemma filter_all_of_length_eq {α : Type} (p : α → Bool) :
    ∀ l : List α, (l.filter p).length = l.length → ∀ a ∈ l, p a := by
  intro l
  induction l with
  | nil => intro _ a ha; cases ha
  | cons x t ih =>
    intro h a ha
    by_cases hx : p x
    · rw [List.filter_cons_of_pos hx] at h
      simp only [List.length_cons, Nat.add_left_inj] at h
      rcases List.mem_cons.mp ha with rfl | hmem
      · exact hx
      · exact ih h a hmem
    · rw [List.filter_cons_of_neg hx] at h
      have hle := List.length_filter_le p t
      simp only [List.length_cons] at h
      omega

/-- A list of nonpositive reals has nonpositive sum. -/
lemma list_sum_nonpos : ∀ l : List ℝ, (∀ x ∈ l, x ≤ 0) → l.sum ≤ 0 := by
  intro l
  induction l with
  | nil => intro _; simp
  | cons x t ih =>
    intro h
    rw [List.sum_cons]
    have hx := h x (List.mem_cons_self x t)
    have ht := ih (fun y hy => h y (List.mem_cons_of_mem x hy))
    linarith

/-- A list of nonpositive reals summing to zero is zero everywhere. -/
lemma eq_zero_of_sum_zero_of_nonpos :
    ∀ l : List ℝ, (∀ x ∈ l, x ≤ 0) → l.sum = 0 → ∀ x ∈ l, x = 0 := by
  intro l
  induction l with
  | nil => intro _ _ x hx; cases hx
  | cons y t ih =>
    intro h hsum x hx
    rw [List.sum_cons] at hsum
    have hy := h y (List.mem_cons_self y t)
    have ht := list_sum_nonpos t (fun z hz => h z (List.mem_cons_of_mem y hz))
    have hy0 : y = 0 := by linarith
    have htsum : t.sum = 0 := by linarith
    rcases List.mem_cons.mp hx with rfl | hmem
    · exact hy0
    · exact ih (fun z hz => h z (List.mem_cons_of_mem y hz)) htsum x hmem

/-! ### The pattern of a guess against a word -/

/-- The inline pattern spelled out position by position. -/
lemma patternOf_eq (g a : Word) :
    patternOf g a = [patternChar g a 0, patternChar g a 1, patternChar g a 2,
      patternChar g a 3, patternChar g a 4] := rfl

/-- Every position of a pattern is one of the three feedback characters. -/
lemma patternChar_mem_gyb (g a : Word) (i : ℕ) :
    patternChar g a i ∈ (['G','Y','B'] : List Char) := by
  unfold patternChar
  split_ifs <;> simp

/-- Every pattern the engine can produce appears among the 3^5 generated
patterns. -/
lemma patternOf_mem_ALL (g a : Word) : patternOf g a ∈ ALL_POSSIBLE_PATTERNS := by
  rw [patternOf_eq]
  simp only [ALL_POSSIBLE_PATTERNS, List.mem_flatMap, List.mem_map]
  exact ⟨_, patternChar_mem_gyb g a 0, _, patternChar_mem_gyb g a 1,
    _, patternChar_mem_gyb g a 2, _, patternChar_mem_gyb g a 3,
    _, patternChar_mem_gyb g a 4, rfl⟩

lemma patternOf_length (g a : Word) : (patternOf g a).length = 5 := rfl

lemma patternOf_get (g a : Word) (j : ℕ) (h : j < (patternOf g a).length) :
    (patternOf g a).get ⟨j, h⟩ = patternChar g a j := by
  simp only [patternOf, List.get_eq_getElem, List.getElem_map, List.getElem_range]

/-! ### Easy claim theorems -/

/-- C1: the inline single-pass pattern construction violates the
duplicate-letter bound the claim asserts.  For guess "SPEED" against answer
"ABIDE" it produces "BBYYY": both positions holding the guess letter 'E' are
marked Present, although 'E' occurs exactly once in "ABIDE". -/
theorem speed_abide_pattern_eval :
    patternOf ['S','P','E','E','D'] ['A','B','I','D','E'] = ['B','B','Y','Y','Y']
    ∧ ((List.range 5).filter (fun i =>
        (['S','P','E','E','D'] : Word).getD i ' ' == 'E'
        && !((patternOf ['S','P','E','E','D'] ['A','B','I','D','E']).getD i ' ' == 'B'))).length = 2
    ∧ (['A','B','I','D','E'] : Word).count 'E' = 1 := by
  refine ⟨by decide, by decide, by decide⟩

/-- C9: filter_words is idempotent — filtering an already filtered list with
the same guess and pattern returns it unchanged. -/
theorem filter_words_idempotent (words : List Word) (guess result : Word) :
    filter_words (filter_words words guess result) guess result
      = filter_words words guess result := by
  unfold filter_words
  simp [List.filter_filter]

/-- C10: simulate_game of wordle_simulator_v1 never consults its
WORD_FREQUENCY argument and never forwards its weight arguments to
best_guess, so with the same word list, entropy table and random choice of
answer, any two instantiations of those arguments give identical results. -/
theorem simulate_game_ignores_frequency_and_weights
    (WORD_LIST : List Word) (WF WF2 : Word → ℕ) (entropy_scores : Word → ℝ)
    (wb wp we wb2 wp2 we2 : ℝ) (answer : Word) :
    simulate_game WORD_LIST WF entropy_scores wb wp we answer
      = simulate_game WORD_LIST WF2 entropy_scores wb2 wp2 we2 answer := rfl

/-- C5 counterexample: filter_words performs no pattern validation.  With the
empty pattern (length 0 ≠ 5) it returns a filtered candidate set — the whole
input — instead of rejecting the observation, and likewise with a 5-symbol
pattern over a symbol outside {G, Y, B}. -/
theorem filter_words_no_invalid_pattern_cex :
    filter_words [['A','A','A','A','A']] ['B','B','B','B','B'] []
      = [['A','A','A','A','A']]
    ∧ filter_words [['A','A','A','A','A']] ['B','B','B','B','B'] ['X','X','X','X','X']
      = [['A','A','A','A','A']] := by
  refine ⟨by decide, by decide⟩

/-- C2 counterexample: filter_words is not the exact-feedback filter.  For
guess "EEEEE" and observed pattern "GBGGG", the word "EEEEE" is retained (the
'B' rule exempts letters occurring in the guess more often than 'B' occurs in
the pattern), yet its computed feedback "GGGGG" differs from the pattern. -/
theorem filter_words_not_exact_cex :
    filter_words [['E','E','E','E','E']] ['E','E','E','E','E'] ['G','B','G','G','G']
      = [['E','E','E','E','E']]
    ∧ patternOf ['E','E','E','E','E'] ['E','E','E','E','E'] = ['G','G','G','G','G']
    ∧ (['G','G','G','G','G'] : Word) ≠ ['G','B','G','G','G'] := by
  refine ⟨by decide, by decide, by decide⟩

/-! ### Characterising the filter's inner loop -/

/-- matchesAux succeeds exactly when no visited position mismatches. -/
lemma matchesAux_iff (word guess result : Word) :
    ∀ (gs rs : List Char) (i : ℕ),
      matchesAux word guess result i gs rs = true ↔
        ∀ j (h1 : j < gs.length) (h2 : j < rs.length),
          ¬ badPos word guess result (i + j) (gs.get ⟨j, h1⟩) (rs.get ⟨j, h2⟩) := by
  intro gs
  induction gs with
  | nil =>
    intro rs i
    simp [matchesAux]
  | cons g gs ih =>
    intro rs i
    cases rs with
    | nil =>
      simp [matchesAux]
    | cons r rs =>
      simp only [matchesAux]
      by_cases hb : badPos word guess result i g r
      · rw [if_pos hb]
        constructor
        · intro h
          exact absurd h (by decide)
        · intro hall
          have h0 := hall 0 (Nat.succ_pos _) (Nat.succ_pos _)
          simp only [Nat.add_zero, List.get_cons_zero] at h0
          exact (h0 hb).elim
      · rw [if_neg hb]
        rw [ih rs (i + 1)]
        constructor
        · intro h j h1 h2
          cases j with
          | zero =>
            simpa using hb
          | succ k =>
            have hk := h k (Nat.lt_of_succ_lt_succ h1) (Nat.lt_of_succ_lt_succ h2)
            have harith : i + 1 + k = i + (k + 1) := by omega
            rw [harith] at hk
            simpa using hk
        · intro h k hk1 hk2
          have hk := h (k + 1) (Nat.succ_lt_succ hk1) (Nat.succ_lt_succ hk2)
          have harith : i + (k + 1) = i + 1 + k := by omega
          rw [harith] at hk
          simpa using hk

/-- A word always matches its own pattern: the per-symbol rules of
filter_words never reject a word whose computed feedback is exactly the
observed pattern. -/
lemma matchesAux_patternOf (w guess : Word) :
    matchesAux w guess (patternOf guess w) 0 guess (patternOf guess w) = true := by
  rw [matchesAux_iff]
  intro j h1 h2
  rw [patternOf_get, List.get_eq_getElem, ← List.getD_eq_getElem guess ' ' h1]
  simp only [Nat.zero_add]
  unfold patternChar
  by_cases he : guess.getD j ' ' = w.getD j ' '
  · rw [if_pos he]
    intro hbad
    rcases hbad with ⟨_, hne⟩ | ⟨hY, _⟩ | ⟨hB, _⟩
    · exact hne he.symm
    · exact absurd hY (by decide)
    · exact absurd hB (by decide)
  · by_cases hm : guess.getD j ' ' ∈ w
    · rw [if_neg he, if_pos hm]
      intro hbad
      rcases hbad with ⟨hG, _⟩ | ⟨_, hor⟩ | ⟨hB, _⟩
      · exact absurd hG (by decide)
      · rcases hor with hnm | heq
        · exact hnm hm
        · exact he heq.symm
      · exact absurd hB (by decide)
    · rw [if_neg he, if_neg hm]
      intro hbad
      rcases hbad with ⟨hG, _⟩ | ⟨hY, _⟩ | ⟨_, hmem, _⟩
      · exact absurd hG (by decide)
      · exact absurd hY (by decide)
      · exact hm hmem

/-- Soundness of filter_words with respect to the engine's feedback: every
word whose computed feedback equals the observed pattern is retained. -/
lemma mem_filter_words_of_patternOf (words : List Word) (guess w : Word)
    (h : w ∈ words) :
    w ∈ filter_words words guess (patternOf guess w) := by
  unfold filter_words
  exact List.mem_filter.mpr ⟨h, matchesAux_patternOf w guess⟩

/-- A nonempty candidate list always yields a guess (Python's `max` only
raises on an empty sequence). -/
lemma best_guess_isSome (words : List Word) (r : ℕ) (es : Word → ℝ)
    (lfb : Option Word) (wb wp we : ℝ) (h : words ≠ []) :
    ∃ g, best_guess words r es lfb wb wp we = some g := by
  cases words with
  | nil => exact absurd rfl h
  | cons x xs => exact ⟨_, rfl⟩

/-- C4: during a simulated game the answer is always retained by
filter_words (the feedback is computed against the answer itself), so every
candidate list handed to best_guess contains the answer and is nonempty, and
the run never hits the empty-candidate error (`none`). -/
theorem simulate_game_candidates_never_empty (answer : Word) :
    ∀ (fuel : ℕ) (words : List Word) (entropy_scores : Word → ℝ)
      (guesses : List Word), answer ∈ words →
      (∀ ws ∈ simulate_trace answer fuel words entropy_scores,
        answer ∈ ws ∧ ws ≠ [])
      ∧ (simulate_loop answer fuel words entropy_scores guesses).isSome = true := by
  intro fuel
  induction fuel with
  | zero =>
    intro words es guesses hmem
    refine ⟨?_, ?_⟩
    · intro ws hws
      simp [simulate_trace] at hws
    · simp [simulate_loop]
  | succ n ih =>
    intro words es guesses hmem
    have hne : words ≠ [] := List.ne_nil_of_mem hmem
    obtain ⟨g, hg⟩ := best_guess_isSome words 6 es none 0.4 0.4 0.2 hne
    by_cases heq : g = answer
    · refine ⟨?_, ?_⟩
      · intro ws hws
        simp only [simulate_trace, hg, if_pos heq] at hws
        rcases List.mem_cons.mp hws with rfl | h2
        · exact ⟨hmem, hne⟩
        · cases h2
      · simp only [simulate_loop, hg, if_pos heq]
        simp
    · have hmem2 : answer ∈ filter_words words g (patternOf g answer) :=
        mem_filter_words_of_patternOf words g answer hmem
      have ih2 := ih (filter_words words g (patternOf g answer))
        (compute_entropy_scores (filter_words words g (patternOf g answer)))
        (g :: guesses) hmem2
      refine ⟨?_, ?_⟩
      · intro ws hws
        simp only [simulate_trace, hg, if_neg heq] at hws
        rcases List.mem_cons.mp hws with rfl | h2
        · exact ⟨hmem, hne⟩
        · exact ih2.1 ws h2
      · simp only [simulate_loop, hg, if_neg heq]
        exact ih2.2

/-- C4 witness: a concrete singleton game. -/
theorem simulate_game_candidates_never_empty_witness :
    (['C','R','A','N','E'] : Word) ∈ ([['C','R','A','N','E']] : List Word)
    ∧ ((∀ ws ∈ simulate_trace ['C','R','A','N','E'] 6 [['C','R','A','N','E']]
          (fun _ => 0), (['C','R','A','N','E'] : Word) ∈ ws ∧ ws ≠ [])
      ∧ (simulate_loop ['C','R','A','N','E'] 6 [['C','R','A','N','E']]
          (fun _ => 0) []).isSome = true) :=
  ⟨by decide,
   simulate_game_candidates_never_empty ['C','R','A','N','E'] 6
     [['C','R','A','N','E']] (fun _ => 0) [] (by decide)⟩

/-- C8: filter_words returns a sublist of its input (same words, same
relative order, nothing added), and consequently the successive candidate
lists of a simulated game only ever shrink: each one is a sublist of its
predecessor. -/
theorem filter_words_sublist_and_monotone :
    (∀ (words : List Word) (guess result : Word),
      List.Sublist (filter_words words guess result) words)
    ∧ (∀ (answer : Word) (fuel : ℕ) (words : List Word)
        (entropy_scores : Word → ℝ),
        List.Chain' (fun a b => List.Sublist b a)
          (simulate_trace answer fuel words entropy_scores)) := by
  constructor
  · intro words guess result
    exact List.filter_sublist words
  · intro answer fuel
    induction fuel with
    | zero =>
      intro words es
      simp [simulate_trace]
    | succ n ih =>
      intro words es
      rw [simulate_trace]
      apply List.chain'_cons'.mpr
      constructor
      · intro y hy
        cases hbg : best_guess words 6 es none 0.4 0.4 0.2 with
        | none =>
          simp only [hbg] at hy
          simp at hy
        | some g =>
          by_cases heq : g = answer
          · simp only [hbg, if_pos heq] at hy
            simp at hy
          · simp only [hbg, if_neg heq] at hy
            cases n with
            | zero =>
              simp [simulate_trace] at hy
            | succ m =>
              rw [simulate_trace] at hy
              simp only [List.head?_cons, Option.mem_def, Option.some.injEq] at hy
              rw [← hy]
              exact List.filter_sublist words
      · cases hbg : best_guess words 6 es none 0.4 0.4 0.2 with
        | none =>
          simp only [hbg]
          simp
        | some g =>
          by_cases heq : g = answer
          · simp only [hbg, if_pos heq]
            simp
          · simp only [hbg, if_neg heq]
            exact ih _ _

/-- C5 amended: filter_words validates nothing.  A pattern none of whose
symbols is 'G', 'Y' or 'B' imposes no constraint at any position, so the
whole candidate list is returned unchanged; in particular no wrong-length or
wrong-symbol observation is ever rejected. -/
theorem filter_words_unconstrained_symbols (words : List Word)
    (guess result : Word)
    (h : ∀ r ∈ result, r ≠ 'G' ∧ r ≠ 'Y' ∧ r ≠ 'B') :
    filter_words words guess result = words := by
  unfold filter_words
  apply List.filter_eq_self.mpr
  intro w hw
  rw [matchesAux_iff]
  intro j h1 h2
  have hr := h (result.get ⟨j, h2⟩) (result.get_mem j h2)
  intro hbad
  rcases hbad with ⟨hG, _⟩ | ⟨hY, _⟩ | ⟨hB, _⟩
  · exact hr.1 hG
  · exact hr.2.1 hY
  · exact hr.2.2 hB

/-- C5 amended witness: an all-'X' pattern filters nothing out. -/
theorem filter_words_unconstrained_symbols_witness :
    (∀ r ∈ (['X','X','X','X','X'] : Word), r ≠ 'G' ∧ r ≠ 'Y' ∧ r ≠ 'B')
    ∧ filter_words [['A','A','A','A','A']] ['B','B','B','B','B']
        ['X','X','X','X','X'] = [['A','A','A','A','A']] :=
  ⟨by decide,
   filter_words_unconstrained_symbols [['A','A','A','A','A']]
     ['B','B','B','B','B'] ['X','X','X','X','X'] (by decide)⟩

/-- Positionwise comparison bounds one predicate count by another. -/
lemma countP_le_pointwise {α β : Type} (p : α → Bool) (q : β → Bool) :
    ∀ (l1 : List α) (l2 : List β), l1.length = l2.length →
      (∀ j (h1 : j < l1.length) (h2 : j < l2.length),
        p (l1.get ⟨j, h1⟩) = true → q (l2.get ⟨j, h2⟩) = true) →
      l1.countP p ≤ l2.countP q := by
  intro l1
  induction l1 with
  | nil =>
    intro l2 _ _
    simp
  | cons x t ih =>
    intro l2 hlen hpt
    cases l2 with
    | nil => simp at hlen
    | cons y s =>
      rw [List.countP_cons, List.countP_cons]
      have h0 : p x = true → q y = true := by
        intro hp
        have h00 := hpt 0 (Nat.succ_pos _) (Nat.succ_pos _)
        simp only [List.get_cons_zero] at h00
        exact h00 hp
      have ht : t.countP p ≤ s.countP q := by
        apply ih s (by simpa using hlen)
        intro j h1 h2 hp
        have hj := hpt (j + 1) (Nat.succ_lt_succ h1) (Nat.succ_lt_succ h2)
        simp only [List.get_cons_succ] at hj
        exact hj hp
      by_cases hp : p x = true
      · rw [if_pos hp, if_pos (h0 hp)]
        omega
      · rw [if_neg hp]
        split_ifs <;> omega

/-- For a 5-letter guess and answer, a guess letter marked 'B' occurs in the
guess no more often than 'B' occurs in the whole pattern, because every
occurrence of that letter in the guess is itself marked 'B' (the letter is
absent from the answer). -/
lemma guess_count_le_countB (guess answer : Word) (hg : guess.length = 5)
    (ha : answer.length = 5) (j : ℕ) (hj5 : j < 5)
    (hB : patternChar guess answer j = 'B') :
    guess.count (guess.getD j ' ') ≤ (patternOf guess answer).count 'B' := by
  have hnm : guess.getD j ' ' ∉ answer := by
    unfold patternChar at hB
    by_cases h1 : guess.getD j ' ' = answer.getD j ' '
    · rw [if_pos h1] at hB
      exact absurd hB (by decide)
    · by_cases h2 : guess.getD j ' ' ∈ answer
      · rw [if_neg h1, if_pos h2] at hB
        exact absurd hB (by decide)
      · exact h2
  show guess.countP (· == guess.getD j ' ')
    ≤ (patternOf guess answer).countP (· == 'B')
  apply countP_le_pointwise _ _ guess (patternOf guess answer)
    (by rw [hg, patternOf_length])
  intro k h1 h2 hp
  have hk5 : k < 5 := by
    rw [patternOf_length] at h2
    exact h2
  rw [patternOf_get]
  have hgk : guess.get ⟨k, h1⟩ = guess.getD k ' ' := by
    rw [List.getD_eq_getElem guess ' ' h1]
    simp [List.get_eq_getElem]
  rw [hgk] at hp
  have heqc : guess.getD k ' ' = guess.getD j ' ' := by simpa using hp
  unfold patternChar
  rw [heqc]
  have hne : guess.getD j ' ' ≠ answer.getD k ' ' := by
    intro hcontra
    apply hnm
    rw [hcontra]
    have hka : k < answer.length := by omega
    rw [List.getD_eq_getElem answer ' ' hka]
    exact List.getElem_mem hka
  rw [if_neg hne, if_neg hnm]
  simp

/-- For 5-letter guesses and answers and a 5-letter candidate word, a word
the filter retains against a pattern the engine itself generated has exactly
that pattern as its own feedback. -/
lemma patternOf_eq_of_matches (guess answer w : Word) (hg : guess.length = 5)
    (ha : answer.length = 5) (hw : w.length = 5)
    (hm : matchesAux w guess (patternOf guess answer) 0 guess
      (patternOf guess answer) = true) :
    patternOf guess w = patternOf guess answer := by
  have hiff := (matchesAux_iff w guess (patternOf guess answer) guess
    (patternOf guess answer) 0).mp hm
  apply List.ext_get (by rw [patternOf_length, patternOf_length])
  intro j hj1 hj2
  have hj5 : j < 5 := by
    rw [patternOf_length] at hj1
    exact hj1
  rw [patternOf_get, patternOf_get]
  have hjg : j < guess.length := by omega
  have hbad := hiff j hjg (by rw [patternOf_length]; exact hj5)
  rw [patternOf_get] at hbad
  have hgj : guess.get ⟨j, hjg⟩ = guess.getD j ' ' := by
    rw [List.getD_eq_getElem guess ' ' hjg]
    simp [List.get_eq_getElem]
  rw [hgj] at hbad
  simp only [Nat.zero_add] at hbad
  unfold badPos at hbad
  by_cases h1 : guess.getD j ' ' = answer.getD j ' '
  · have hr : patternChar guess answer j = 'G' := by
      unfold patternChar
      rw [if_pos h1]
    rw [hr] at hbad ⊢
    have hwj : w.getD j ' ' = guess.getD j ' ' := by
      by_contra hne
      exact hbad (Or.inl ⟨rfl, hne⟩)
    unfold patternChar
    rw [if_pos hwj.symm]
  · by_cases h2 : guess.getD j ' ' ∈ answer
    · have hr : patternChar guess answer j = 'Y' := by
        unfold patternChar
        rw [if_neg h1, if_pos h2]
      rw [hr] at hbad ⊢
      have h3 : ¬(guess.getD j ' ' ∉ w ∨ w.getD j ' ' = guess.getD j ' ') :=
        fun h => hbad (Or.inr (Or.inl ⟨rfl, h⟩))
      push_neg at h3
      unfold patternChar
      rw [if_neg (fun h => h3.2 h.symm), if_pos h3.1]
    · have hr : patternChar guess answer j = 'B' := by
        unfold patternChar
        rw [if_neg h1, if_neg h2]
      rw [hr] at hbad ⊢
      have hcount := guess_count_le_countB guess answer hg ha j hj5 hr
      have hcnw : guess.getD j ' ' ∉ w := by
        intro hmem
        exact hbad (Or.inr (Or.inr ⟨rfl, hmem, hcount⟩))
      have hne : guess.getD j ' ' ≠ w.getD j ' ' := by
        intro hcontra
        apply hcnw
        rw [hcontra]
        have hjw : j < w.length := by omega
        rw [List.getD_eq_getElem w ' ' hjw]
        exact List.getElem_mem hjw
      unfold patternChar
      rw [if_neg hne, if_neg hcnw]

/-- C2 amended: filter_words retains every word whose computed feedback
equals the observed pattern, and whenever the observed pattern is one the
engine generated (the feedback of the guess against some 5-letter answer, as
in every simulated observation) and the candidates are 5-letter words, the
retained words are exactly those whose computed feedback equals the
pattern.  (For patterns not of that form the 'B' rule can retain more words —
see the counterexample.) -/
theorem filter_words_sound_and_exact_on_generated :
    (∀ (words : List Word) (guess result w : Word),
      w ∈ words → patternOf guess w = result → w ∈ filter_words words guess result)
    ∧ (∀ (words : List Word) (guess answer : Word),
        guess.length = 5 → answer.length = 5 → (∀ w ∈ words, w.length = 5) →
        filter_words words guess (patternOf guess answer)
          = words.filter (fun w => patternOf guess w == patternOf guess answer)) := by
  constructor
  · intro words guess result w hmem hpat
    subst hpat
    exact mem_filter_words_of_patternOf words guess w hmem
  · intro words guess answer hg ha hws
    unfold filter_words
    apply List.filter_congr
    intro w hw
    by_cases hpw : patternOf guess w = patternOf guess answer
    · rw [← hpw, matchesAux_patternOf]
      simp
    · have hrhs : (patternOf guess w == patternOf guess answer) = false := by
        simp [hpw]
      rw [hrhs]
      rcases Bool.eq_false_or_eq_true
        (matchesAux w guess (patternOf guess answer) 0 guess
          (patternOf guess answer)) with ht | hf
      · exact absurd (patternOf_eq_of_matches guess answer w hg ha (hws w hw) ht) hpw
      · exact hf

/-- C2 amended witness: a concrete two-word dictionary with a generated
pattern. -/
theorem filter_words_sound_and_exact_on_generated_witness :
    (['C','R','O','N','E'] : Word) ∈ filter_words
        [['C','R','A','N','E'], ['C','R','O','N','E']] ['C','R','A','N','E']
        (patternOf ['C','R','A','N','E'] ['C','R','O','N','E'])
    ∧ filter_words [['C','R','A','N','E'], ['C','R','O','N','E']]
        ['C','R','A','N','E'] (patternOf ['C','R','A','N','E'] ['C','R','O','N','E'])
      = List.filter
          (fun w => patternOf ['C','R','A','N','E'] w
            == patternOf ['C','R','A','N','E'] ['C','R','O','N','E'])
          [['C','R','A','N','E'], ['C','R','O','N','E']] :=
  ⟨filter_words_sound_and_exact_on_generated.1
      [['C','R','A','N','E'], ['C','R','O','N','E']] ['C','R','A','N','E']
      (patternOf ['C','R','A','N','E'] ['C','R','O','N','E'])
      ['C','R','O','N','E'] (by decide) rfl,
   filter_words_sound_and_exact_on_generated.2
      [['C','R','A','N','E'], ['C','R','O','N','E']] ['C','R','A','N','E']
      ['C','R','O','N','E'] (by decide) (by decide) (by decide)⟩

/-- C6: the optimizer's score for a weight point averages the attempt counts
of the successful games only — counts of 0 (failures) enter neither the sum
nor the divisor — and a point where all simulations fail scores infinity
(`⊤`) instead of crashing on a zero division, so the grid search walks on:
with every point scoring `⊤` the whole search still completes and returns the
initial best (weights `(0,0,0)`, score `⊤`). -/
theorem evaluate_weights_parallel_spec (attempts : List ℕ) :
    ((∀ a ∈ attempts, a = 0) → evaluate_weights_parallel attempts = ⊤)
    ∧ ((∃ a ∈ attempts, 0 < a) →
        evaluate_weights_parallel attempts
          = (((attempts.filter (fun a => decide (0 < a))).sum : ℚ)
              / ((attempts.filter (fun a => decide (0 < a))).length : ℚ) : ℚ))
    ∧ (∀ evalAt : ℚ → ℚ → WithTop ℚ, (∀ x y : ℚ, evalAt x y = ⊤) →
        optimize_weights evalAt = ((0, 0, 0), ⊤)) := by
  refine ⟨?_, ?_, ?_⟩
  · intro h0
    have hnil : attempts.filter (fun a => decide (0 < a)) = [] := by
      apply List.filter_eq_nil_iff.mpr
      intro a ha
      simp [h0 a ha]
    simp [evaluate_weights_parallel, hnil]
  · rintro ⟨a, ha, hpos⟩
    have hne : attempts.filter (fun a => decide (0 < a)) ≠ [] := by
      intro hnil
      have hall := List.filter_eq_nil_iff.mp hnil a ha
      simp [hpos] at hall
    simp [evaluate_weights_parallel, List.isEmpty_iff, hne]
  · intro evalAt hev
    unfold optimize_weights
    apply foldl_id
    intro b wb
    apply foldl_id
    intro b2 wp
    rw [hev wb wp]
    split_ifs with h1 h2
    · rfl
    · exact absurd h2 not_top_lt
    · rfl

/-- C6 witness: two failures average to infinity; one success among failures
averages over the successes only; an all-infinite grid still completes. -/
theorem evaluate_weights_parallel_spec_witness :
    evaluate_weights_parallel [0, 0] = ⊤
    ∧ evaluate_weights_parallel [0, 3] = ((3 : ℚ) : WithTop ℚ)
    ∧ optimize_weights (fun _ _ => ⊤) = ((0, 0, 0), ⊤) := by
  refine ⟨(evaluate_weights_parallel_spec [0, 0]).1 (by decide), ?_,
    (evaluate_weights_parallel_spec []).2.2 (fun _ _ => ⊤) (fun _ _ => rfl)⟩
  have h := (evaluate_weights_parallel_spec [0, 3]).2.1 ⟨3, by decide, by decide⟩
  have hf : ([0, 3] : List ℕ).filter (fun a => decide (0 < a)) = [3] := by decide
  rw [h, hf]
  norm_num

/-! ### Entropy -/

/-- A bucket never exceeds the candidate count. -/
lemma bucket_le_length (word : Word) (words : List Word) (pat : Word) :
    bucket word words pat ≤ words.length :=
  List.length_filter_le _ _

/-- The bucket of a candidate's own pattern is nonempty. -/
lemma bucket_pos_of_mem (word : Word) (words : List Word) (w : Word)
    (h : w ∈ words) : 0 < bucket word words (patternOf word w) := by
  have hmem : w ∈ words.filter (fun x => patternOf word x == patternOf word w) :=
    List.mem_filter.mpr ⟨h, by simp⟩
  exact List.length_pos.mpr (List.ne_nil_of_mem hmem)

/-- C3: for a nonempty candidate list, the entropy the engine computes for a
word is zero exactly when every candidate produces the same feedback pattern
against that word, and it is strictly positive as soon as two candidates
produce different patterns. -/
theorem compute_entropy_zero_iff (word : Word) (words : List Word)
    (hne : words ≠ []) :
    (compute_entropy word words = 0 ↔
      ∀ w1 ∈ words, ∀ w2 ∈ words, patternOf word w1 = patternOf word w2)
    ∧ (∀ w1 ∈ words, ∀ w2 ∈ words,
        patternOf word w1 ≠ patternOf word w2 → 0 < compute_entropy word words) := by
  have hn : 0 < words.length := List.length_pos.mpr hne
  have hnQ : (0 : ℚ) < (words.length : ℚ) := by exact_mod_cast hn
  have hnQ0 : (words.length : ℚ) ≠ 0 := ne_of_gt hnQ
  set L := ((probabilities word words).filter (fun p => decide (0 < p))).map
      (fun p : ℚ => (p : ℝ) * Real.logb 2 (p : ℝ)) with hL
  have hce : compute_entropy word words = -L.sum := by
    rw [hL]
    rfl
  have hq_mem : ∀ q ∈ (probabilities word words).filter (fun p => decide (0 < p)),
      0 < q ∧ q ≤ 1 ∧ ∃ pat ∈ ALL_POSSIBLE_PATTERNS,
        (bucket word words pat : ℚ) / (words.length : ℚ) = q := by
    intro q hq
    have hq1 := List.mem_filter.mp hq
    have hqpos : 0 < q := by simpa using hq1.2
    obtain ⟨pat, hpat, hqe⟩ := List.mem_map.mp hq1.1
    refine ⟨hqpos, ?_, pat, hpat, hqe⟩
    rw [← hqe, div_le_one hnQ]
    exact_mod_cast bucket_le_length word words pat
  have hnonpos : ∀ x ∈ L, x ≤ 0 := by
    intro x hx
    obtain ⟨q, hq, hxe⟩ := List.mem_map.mp hx
    obtain ⟨hqpos, hqle, _⟩ := hq_mem q hq
    rw [← hxe]
    have h0R : (0 : ℝ) < (q : ℝ) := by exact_mod_cast hqpos
    have h1R : (q : ℝ) ≤ 1 := by exact_mod_cast hqle
    have hlog := Real.logb_nonpos one_lt_two (le_of_lt h0R) h1R
    exact mul_nonpos_iff.mpr (Or.inl ⟨le_of_lt h0R, hlog⟩)
  have hiff : compute_entropy word words = 0 ↔
      ∀ w1 ∈ words, ∀ w2 ∈ words, patternOf word w1 = patternOf word w2 := by
    constructor
    · intro h0 w1 hw1 w2 hw2
      have hsum0 : L.sum = 0 := by
        have hneg : -L.sum = 0 := by
          rw [← hce]
          exact h0
        linarith
      have hall0 := eq_zero_of_sum_zero_of_nonpos L hnonpos hsum0
      have hq : ((bucket word words (patternOf word w1) : ℚ) / (words.length : ℚ))
          ∈ (probabilities word words).filter (fun p => decide (0 < p)) := by
        apply List.mem_filter.mpr
        refine ⟨List.mem_map.mpr ⟨patternOf word w1, patternOf_mem_ALL word w1, rfl⟩, ?_⟩
        simp only [decide_eq_true_eq]
        apply div_pos _ hnQ
        exact_mod_cast bucket_pos_of_mem word words w1 hw1
      set q := (bucket word words (patternOf word w1) : ℚ) / (words.length : ℚ)
        with hqdef
      have hterm : (q : ℝ) * Real.logb 2 (q : ℝ) = 0 :=
        hall0 _ (List.mem_map.mpr ⟨q, hq, rfl⟩)
      have hqpos : 0 < q := (hq_mem q hq).1
      have hqposR : (0 : ℝ) < (q : ℝ) := by exact_mod_cast hqpos
      have hq1 : q = 1 := by
        rcases mul_eq_zero.mp hterm with hq0 | hlog
        · exact absurd hq0 hqposR.ne'
        · have hQ1 : (q : ℝ) = 1 :=
            Real.eq_one_of_pos_of_logb_eq_zero one_lt_two hqposR hlog
          exact_mod_cast hQ1
      rw [hqdef] at hq1
      rw [div_eq_one_iff_eq hnQ0] at hq1
      have hlen : (words.filter
          (fun w => patternOf word w == patternOf word w1)).length = words.length := by
        exact_mod_cast hq1
      have hallpat := filter_all_of_length_eq _ words hlen w2 hw2
      simp only [beq_iff_eq] at hallpat
      exact hallpat.symm
    · intro hsame
      rw [hce]
      have hsum0 : L.sum = 0 := by
        apply List.sum_eq_zero
        intro x hx
        obtain ⟨q, hq, hxe⟩ := List.mem_map.mp hx
        obtain ⟨hqpos, hqle, pat, hpat, hqe⟩ := hq_mem q hq
        have hbpos : 0 < bucket word words pat := by
          by_contra hb
          push_neg at hb
          have hb0 : bucket word words pat = 0 := Nat.le_zero.mp hb
          rw [← hqe, hb0] at hqpos
          norm_num at hqpos
        have hfil : words.filter (fun w => patternOf word w == pat) ≠ [] := by
          intro hnil
          unfold bucket at hbpos
          rw [hnil] at hbpos
          simp at hbpos
        obtain ⟨w0, hw0⟩ := List.exists_mem_of_ne_nil _ hfil
        have hw0f := List.mem_filter.mp hw0
        have hw0pat : patternOf word w0 = pat := by simpa using hw0f.2
        have hfull : words.filter (fun w => patternOf word w == pat) = words := by
          apply List.filter_eq_self.mpr
          intro w hw
          simp only [beq_iff_eq]
          rw [hsame w hw w0 hw0f.1]
          exact hw0pat
        have hbfull : bucket word words pat = words.length := by
          unfold bucket
          rw [hfull]
        have hq1 : q = 1 := by
          rw [← hqe, hbfull]
          exact div_self hnQ0
        rw [← hxe, hq1]
        simp
      rw [hsum0, neg_zero]
  refine ⟨hiff, ?_⟩
  intro w1 hw1 w2 hw2 hnepat
  have hne0 : compute_entropy word words ≠ 0 := by
    intro h0
    exact hnepat (hiff.mp h0 w1 hw1 w2 hw2)
  have hge : 0 ≤ compute_entropy word words := by
    rw [hce]
    have := list_sum_nonpos L hnonpos
    linarith
  exact lt_of_le_of_ne hge (Ne.symm hne0)

/-- C3 witness: a singleton candidate list. -/
theorem compute_entropy_zero_iff_witness :
    ([['C','R','A','N','E']] : List Word) ≠ []
    ∧ ((compute_entropy ['S','P','E','E','D'] [['C','R','A','N','E']] = 0 ↔
        ∀ w1 ∈ [['C','R','A','N','E']], ∀ w2 ∈ [['C','R','A','N','E']],
          patternOf ['S','P','E','E','D'] w1 = patternOf ['S','P','E','E','D'] w2)
      ∧ (∀ w1 ∈ [['C','R','A','N','E']], ∀ w2 ∈ [['C','R','A','N','E']],
          patternOf ['S','P','E','E','D'] w1 ≠ patternOf ['S','P','E','E','D'] w2 →
          0 < compute_entropy ['S','P','E','E','D'] [['C','R','A','N','E']])) :=
  ⟨by decide,
   compute_entropy_zero_iff ['S','P','E','E','D'] [['C','R','A','N','E']] (by decide)⟩

/-! ### Python max semantics -/

/-- Left fold of the Python-max step starting at `x`: the result is an
element of `x :: xs`, its key bounds every key in `x :: xs`, and every
element strictly before it in the list has a strictly smaller key — Python's
`max` keeps the first of several maximal elements. -/
lemma pymax_foldl_spec {α : Type} (key : α → ℝ) :
    ∀ (xs : List α) (x : α), ∃ w l1 l2,
      xs.foldl (fun cur y => if key cur < key y then y else cur) x = w
      ∧ x :: xs = l1 ++ w :: l2
      ∧ (∀ v ∈ l1, key v < key w)
      ∧ (∀ v ∈ x :: xs, key v ≤ key w) := by
  intro xs
  induction xs with
  | nil =>
    intro x
    refine ⟨x, [], [], rfl, rfl, by simp, ?_⟩
    intro v hv
    rcases List.mem_cons.mp hv with rfl | h
    · exact le_refl _
    · cases h
  | cons y ys ih =>
    intro x
    by_cases hxy : key x < key y
    · obtain ⟨w, l1, l2, hfold, hdecomp, hlt, hle⟩ := ih y
      refine ⟨w, x :: l1, l2, ?_, ?_, ?_, ?_⟩
      · rw [List.foldl_cons]
        rw [if_pos hxy]
        exact hfold
      · rw [List.cons_append, hdecomp]
      · intro v hv
        rcases List.mem_cons.mp hv with rfl | h
        · exact lt_of_lt_of_le hxy (hle y (List.mem_cons_self y ys))
        · exact hlt v h
      · intro v hv
        rcases List.mem_cons.mp hv with rfl | h
        · exact le_of_lt (lt_of_lt_of_le hxy (hle y (List.mem_cons_self y ys)))
        · exact hle v h
    · obtain ⟨w, l1, l2, hfold, hdecomp, hlt, hle⟩ := ih x
      have hyx : key y ≤ key x := not_lt.mp hxy
      cases l1 with
      | nil =>
        simp only [List.nil_append] at hdecomp
        injection hdecomp with hxw hys
        refine ⟨w, [], y :: l2, ?_, ?_, by simp, ?_⟩
        · rw [List.foldl_cons]
          rw [if_neg hxy]
          exact hfold
        · simp only [List.nil_append]
          rw [← hxw, ← hys]
        · intro v hv
          rcases List.mem_cons.mp hv with rfl | h
          · exact hle v (List.mem_cons_self v ys)
          · rcases List.mem_cons.mp h with rfl | h2
            · exact le_trans hyx (hle x (List.mem_cons_self x ys))
            · exact hle v (List.mem_cons_of_mem x h2)
      | cons a t =>
        rw [List.cons_append] at hdecomp
        injection hdecomp with hxa hys
        refine ⟨w, x :: y :: t, l2, ?_, ?_, ?_, ?_⟩
        · rw [List.foldl_cons]
          rw [if_neg hxy]
          exact hfold
        · rw [List.cons_append, List.cons_append, hys]
        · have hxltw : key x < key w := by
            rw [hxa]
            exact hlt a (List.mem_cons_self a t)
          intro v hv
          rcases List.mem_cons.mp hv with rfl | h
          · exact hxltw
          · rcases List.mem_cons.mp h with rfl | h2
            · exact lt_of_le_of_lt hyx hxltw
            · exact hlt v (List.mem_cons_of_mem a h2)
        · intro v hv
          rcases List.mem_cons.mp hv with rfl | h
          · exact hle v (List.mem_cons_self v ys)
          · rcases List.mem_cons.mp h with rfl | h2
            · exact le_trans hyx (hle x (List.mem_cons_self x ys))
            · exact hle v (List.mem_cons_of_mem x h2)

/-- C7 amended: on a nonempty candidate list, best_guess returns a candidate
attaining the maximum composite score, and among several maximal candidates
it returns the FIRST one in candidate-list order (Python's `max`), not the
lexically smallest. -/
theorem best_guess_first_argmax (words : List Word) (remaining_guesses : ℕ)
    (entropy_scores : Word → ℝ) (last_feedback : Option Word) (wb wp we : ℝ)
    (hne : words ≠ []) :
    ∃ w l1 l2,
      best_guess words remaining_guesses entropy_scores last_feedback wb wp we
        = some w
      ∧ words = l1 ++ w :: l2
      ∧ (∀ v ∈ l1, score_word remaining_guesses v (get_letter_frequencies words)
            (compute_positional_frequencies words) words entropy_scores wb wp we
          < score_word remaining_guesses w (get_letter_frequencies words)
            (compute_positional_frequencies words) words entropy_scores wb wp we)
      ∧ (∀ v ∈ words, score_word remaining_guesses v (get_letter_frequencies words)
            (compute_positional_frequencies words) words entropy_scores wb wp we
          ≤ score_word remaining_guesses w (get_letter_frequencies words)
            (compute_positional_frequencies words) words entropy_scores wb wp we) := by
  cases words with
  | nil => exact absurd rfl hne
  | cons x xs =>
    obtain ⟨w, l1, l2, hfold, hdecomp, hlt, hle⟩ :=
      pymax_foldl_spec (fun word => score_word remaining_guesses word
        (get_letter_frequencies (x :: xs)) (compute_positional_frequencies (x :: xs))
        (x :: xs) entropy_scores wb wp we) xs x
    exact ⟨w, l1, l2, congrArg some hfold, hdecomp, hlt, hle⟩

/-- C7 amended witness: a singleton candidate list. -/
theorem best_guess_first_argmax_witness :
    ([['A','A','A','A','A']] : List Word) ≠ []
    ∧ ∃ w l1 l2,
        best_guess [['A','A','A','A','A']] 6 (fun _ => 0) none 0.4 0.4 0.2 = some w
        ∧ ([['A','A','A','A','A']] : List Word) = l1 ++ w :: l2
        ∧ (∀ v ∈ l1, score_word 6 v (get_letter_frequencies [['A','A','A','A','A']])
              (compute_positional_frequencies [['A','A','A','A','A']])
              [['A','A','A','A','A']] (fun _ => 0) 0.4 0.4 0.2
            < score_word 6 w (get_letter_frequencies [['A','A','A','A','A']])
              (compute_positional_frequencies [['A','A','A','A','A']])
              [['A','A','A','A','A']] (fun _ => 0) 0.4 0.4 0.2)
        ∧ (∀ v ∈ ([['A','A','A','A','A']] : List Word),
            score_word 6 v (get_letter_frequencies [['A','A','A','A','A']])
              (compute_positional_frequencies [['A','A','A','A','A']])
              [['A','A','A','A','A']] (fun _ => 0) 0.4 0.4 0.2
            ≤ score_word 6 w (get_letter_frequencies [['A','A','A','A','A']])
              (compute_positional_frequencies [['A','A','A','A','A']])
              [['A','A','A','A','A']] (fun _ => 0) 0.4 0.4 0.2) :=
  ⟨by decide,
   best_guess_first_argmax [['A','A','A','A','A']] 6 (fun _ => 0) none
     0.4 0.4 0.2 (by decide)⟩

/-- C7 counterexample: with candidates ["BAAAA", "ABAAA"] (in that order),
empty entropy table and any of the default weights, both words receive the
same composite score, yet best_guess returns "BAAAA" — the first in list
order — although "ABAAA" is the lexically smallest of the maximal
candidates. -/
theorem best_guess_tie_not_lex_cex :
    best_guess [['B','A','A','A','A'], ['A','B','A','A','A']] 6 (fun _ => 0)
        none 0.4 0.4 0.2 = some ['B','A','A','A','A']
    ∧ score_word 6 ['A','B','A','A','A']
        (get_letter_frequencies [['B','A','A','A','A'], ['A','B','A','A','A']])
        (compute_positional_frequencies [['B','A','A','A','A'], ['A','B','A','A','A']])
        [['B','A','A','A','A'], ['A','B','A','A','A']] (fun _ => 0) 0.4 0.4 0.2
      = score_word 6 ['B','A','A','A','A']
        (get_letter_frequencies [['B','A','A','A','A'], ['A','B','A','A','A']])
        (compute_positional_frequencies [['B','A','A','A','A'], ['A','B','A','A','A']])
        [['B','A','A','A','A'], ['A','B','A','A','A']] (fun _ => 0) 0.4 0.4 0.2
    ∧ (['A','B','A','A','A'] : Word) < ['B','A','A','A','A'] := by
  have hscore : score_word 6 ['A','B','A','A','A']
      (get_letter_frequencies [['B','A','A','A','A'], ['A','B','A','A','A']])
      (compute_positional_frequencies [['B','A','A','A','A'], ['A','B','A','A','A']])
      [['B','A','A','A','A'], ['A','B','A','A','A']] (fun _ => 0) 0.4 0.4 0.2
      = score_word 6 ['B','A','A','A','A']
      (get_letter_frequencies [['B','A','A','A','A'], ['A','B','A','A','A']])
      (compute_positional_frequencies [['B','A','A','A','A'], ['A','B','A','A','A']])
      [['B','A','A','A','A'], ['A','B','A','A','A']] (fun _ => 0) 0.4 0.4 0.2 := by
    unfold score_word
    rw [show base_score ['A','B','A','A','A']
        (get_letter_frequencies [['B','A','A','A','A'], ['A','B','A','A','A']]) = 10
      from by decide]
    rw [show base_score ['B','A','A','A','A']
        (get_letter_frequencies [['B','A','A','A','A'], ['A','B','A','A','A']]) = 10
      from by decide]
    rw [show positional_score ['A','B','A','A','A']
        (compute_positional_frequencies [['B','A','A','A','A'], ['A','B','A','A','A']]) = 8
      from by decide]
    rw [show positional_score ['B','A','A','A','A']
        (compute_positional_frequencies [['B','A','A','A','A'], ['A','B','A','A','A']]) = 8
      from by decide]
    unfold uniqueness_penalty
    rw [show (['A','B','A','A','A'] : Word).dedup.length = 2 from by decide]
    rw [show (['B','A','A','A','A'] : Word).dedup.length = 2 from by decide]
    rw [show (['A','B','A','A','A'] : Word).length = 5 from rfl]
    rw [show (['B','A','A','A','A'] : Word).length = 5 from rfl]
  refine ⟨?_, hscore, by decide⟩
  have hred : best_guess [['B','A','A','A','A'], ['A','B','A','A','A']] 6
      (fun _ => 0) none 0.4 0.4 0.2
      = some (if score_word 6 ['B','A','A','A','A']
          (get_letter_frequencies [['B','A','A','A','A'], ['A','B','A','A','A']])
          (compute_positional_frequencies [['B','A','A','A','A'], ['A','B','A','A','A']])
          [['B','A','A','A','A'], ['A','B','A','A','A']] (fun _ => 0) 0.4 0.4 0.2
        < score_word 6 ['A','B','A','A','A']
          (get_letter_frequencies [['B','A','A','A','A'], ['A','B','A','A','A']])
          (compute_positional_frequencies [['B','A','A','A','A'], ['A','B','A','A','A']])
          [['B','A','A','A','A'], ['A','B','A','A','A']] (fun _ => 0) 0.4 0.4 0.2
        then ['A','B','A','A','A'] else ['B','A','A','A','A']) := rfl
  rw [hred, if_neg]
  rw [hscore]
  exact lt_irrefl _
